import Mathlib

/-!
# Verification of the pffft C++ wrapper layer (`pffft.hpp`)

This file gives a shallow embedding of the generic FFT front end in
`pffft.hpp`: the numeric-kind dispatch (`Types<T>`), the per-kind
`Setup<T>` wrapper around the engine handle, and the user-facing
`Fft<T>` facade with its scratch-buffer management.  The external C
engine (`pffft.c` / `pffft_double.c`) is not part of the file under
verification; where a property depends on engine behaviour the engine
is modelled from its specification, and the corresponding definitions
say so in their doc comments.

Stateful C++ code is embedded as explicit state passing: each mutating
member function becomes a Lean function from the old state to the new
state together with the list of external calls (engine calls and
aligned-allocator calls) it performs, in source order.
-/

namespace PffftSpec

/-- The four numeric kinds supported by the wrapper: the template
parameter `T` of `Fft<T>` ranges over `float`, `std::complex<float>`,
`double`, `std::complex<double>`. -/
inductive Kind
  | realSingle
  | complexSingle
  | realDouble
  | complexDouble
  deriving DecidableEq, Repr

/-- `Fft<T>::isComplexTransform`, i.e. `sizeof(T) == sizeof(Complex)`:
true exactly for the two `std::complex` instantiations. -/
def isComplexTransform : Kind → Bool
  | Kind.complexSingle => true
  | Kind.complexDouble => true
  | Kind.realSingle => false
  | Kind.realDouble => false

/-- External calls made by the wrapper layer: engine setup management
(`pffft_new_setup` / `pffft_destroy_setup` and their double-precision
twins, encoded by the `Kind`) and the aligned allocator calls used for
the facade's scratch buffer.  A handle is modelled as a `Nat`; a null
pointer as `none`. -/
inductive Event
  | destroySetup (h : Option Nat)
  | createSetup (len : Int) (k : Kind)
  | alignedFreeCall (w : Option Int)
  | allocWork (len : Int) (k : Kind)
  deriving DecidableEq, Repr

/-- The `if (self) { pffft_destroy_setup(self); }` guard shared by all
four `Setup<T>::prepareLength` specializations. -/
def destroyIfLive (self : Option Nat) : List Event :=
  match self with
  | some h => [Event.destroySetup (some h)]
  | none => []

/-- `Setup<T>::prepareLength(int length)` for each of the four
specializations (src/pffft.hpp lines 409-415, 472-478, 530-539,
594-600).  The engine's `pffft_new_setup` / `pffftd_new_setup` is the
abstract parameter `create` (it may return null).  Only the
`Setup<double>` specialization guards handle creation with
`if (length > 0)`; the other three call `new_setup` unconditionally
after destroying any live handle. -/
def setupPrepareLength (create : Int → Kind → Option Nat) (k : Kind)
    (self : Option Nat) (length : Int) : Option Nat × List Event :=
  match k with
  | Kind.realSingle =>
      (create length Kind.realSingle,
        destroyIfLive self ++ [Event.createSetup length Kind.realSingle])
  | Kind.complexSingle =>
      (create length Kind.complexSingle,
        destroyIfLive self ++ [Event.createSetup length Kind.complexSingle])
  | Kind.realDouble =>
      if 0 < length then
        (create length Kind.realDouble,
          destroyIfLive self ++ [Event.createSetup length Kind.realDouble])
      else
        (none, destroyIfLive self)
  | Kind.complexDouble =>
      (create length Kind.complexDouble,
        destroyIfLive self ++ [Event.createSetup length Kind.complexDouble])

/-- `Setup<T>::~Setup()`: every specialization is exactly
`pffft_destroy_setup(self)` (resp. `pffftd_destroy_setup(self)`),
called unconditionally, even when `self` is null. -/
def setupDestruct (k : Kind) (self : Option Nat) : List Event :=
  match k with
  | Kind.realSingle => [Event.destroySetup self]
  | Kind.complexSingle => [Event.destroySetup self]
  | Kind.realDouble => [Event.destroySetup self]
  | Kind.complexDouble => [Event.destroySetup self]

/-- Which member functions each `Setup<T>` specialization defines, read
off the four class bodies in src/pffft.hpp.  `Setup<std::complex<float>>`
(lines 457-508) defines `transform_ordered`, `transform`, `reorder` and
`convolve` but no `convolveAccumulate`; the other three specializations
define all five. -/
structure SetupOps where
  hasTransformOrdered : Bool
  hasTransform : Bool
  hasReorder : Bool
  hasConvolve : Bool
  hasConvolveAccumulate : Bool
  deriving DecidableEq, Repr

def setupOps : Kind → SetupOps
  | Kind.realSingle => ⟨true, true, true, true, true⟩
  | Kind.complexSingle => ⟨true, true, true, true, false⟩
  | Kind.realDouble => ⟨true, true, true, true, true⟩
  | Kind.complexDouble => ⟨true, true, true, true, true⟩

/-- `Fft<T>::convolveAccumulate` (src/pffft.hpp lines 838-847) is the
one-line forwarder `setup.convolveAccumulate(dft_a, dft_b, dft_ab,
scaling)`, so the facade's operation is well-formed for a kind exactly
when the corresponding `Setup<T>` specialization has the member. -/
def fftHasConvolveAccumulate (k : Kind) : Bool :=
  (setupOps k).hasConvolveAccumulate

/-- The private state of `Fft<T>` (src/pffft.hpp lines 375-379):
the owned `Setup<T> setup` (its handle), the scratch pointer
`Scalar* work` (modelled as `none` for `NULL`, else the number of
scalars the live allocation holds), `int length` and
`int stackThresholdLen`. -/
structure FftState where
  kind : Kind
  setupSelf : Option Nat
  work : Option Int
  length : Int
  stackThresholdLen : Int
  deriving DecidableEq, Repr

/-- Scalars per element of `T`: the `static_assert` in the constructor
pins `sizeof(Complex) == 2 * sizeof(Scalar)`, so one `T` element is two
scalars for the complex kinds and one for the real kinds. -/
def scalarsPerElem (k : Kind) : Int :=
  if isComplexTransform k then 2 else 1

/-- Default value of the constructor argument `stackThresholdLen`
(src/pffft.hpp line 165). -/
def defaultStackThresholdLen : Int := 4096

/-- `Fft<T>::prepareLength(int newLength)` (src/pffft.hpp lines
665-689):

```
const bool wasOnHeap = ( work != NULL );
const bool useHeap = newLength > stackThresholdLen;
if (useHeap == wasOnHeap && newLength == length) return;
length = newLength;
setup.prepareLength(length);
if (work) { Types<T>::alignedFree(work); work = NULL; }
if (useHeap) work = reinterpret_cast<Scalar*>(Types<T>::alignedAlloc(length));
```

`Types<T>::alignedAlloc(length)` allocates `length` elements of `T`,
i.e. `scalarsPerElem kind * length` scalars. -/
def fftPrepareLength (create : Int → Kind → Option Nat) (s : FftState)
    (newLength : Int) : FftState × List Event :=
  if decide (s.stackThresholdLen < newLength) = s.work.isSome ∧ newLength = s.length then
    (s, [])
  else
    ({ s with
        length := newLength,
        setupSelf := (setupPrepareLength create s.kind s.setupSelf newLength).1,
        work := if s.stackThresholdLen < newLength
                then some (scalarsPerElem s.kind * newLength) else none },
      (setupPrepareLength create s.kind s.setupSelf newLength).2
        ++ (if s.work.isSome then [Event.alignedFreeCall s.work] else [])
        ++ (if s.stackThresholdLen < newLength
            then [Event.allocWork newLength s.kind] else []))

/-- `Fft<T>::Fft(int length, int stackThresholdLen = 4096)`
(src/pffft.hpp lines 645-657): member-initializes `length(0)`,
`work(NULL)`, a default-constructed `Setup` (null handle), then calls
`prepareLength(length)` on the constructor argument. -/
def fftInit (create : Int → Kind → Option Nat) (k : Kind)
    (length stackThresholdLen : Int) : FftState × List Event :=
  fftPrepareLength create
    { kind := k, setupSelf := none, work := none, length := 0,
      stackThresholdLen := stackThresholdLen } length

/-- `Fft<T>::~Fft()` (src/pffft.hpp lines 659-663): the single call
`Types<T>::alignedFree(work)`, unconditional; the allocator contract
makes it a no-op on null. -/
def fftDestruct (s : FftState) : List Event :=
  [Event.alignedFreeCall s.work]

/-- `Fft<T>::getLength()` (src/pffft.hpp line 180). -/
def getLength (s : FftState) : Int := s.length

/-- `Fft<T>::getSpectrumSize()` (src/pffft.hpp line 186):
`isComplexTransform() ? length : (length / 2)`, with C++ `int`
division (truncation toward zero, `Int.tdiv`). -/
def getSpectrumSize (s : FftState) : Int :=
  if isComplexTransform s.kind then s.length else Int.tdiv s.length 2

/-- `Fft<T>::getInternalLayoutSize()` (src/pffft.hpp line 192):
`isComplexTransform() ? (2 * length) : length`. -/
def getInternalLayoutSize (s : FftState) : Int :=
  if isComplexTransform s.kind then 2 * s.length else s.length

/-- Model of a scalar of the value domain (`float` / `double`): the
structural claims never compute with scalar values, only with element
counts, so the carrier is a placeholder with a zero element
(`std::vector<T>(n)` value-initializes its `n` elements). -/
abbrev SElem := Int

/-- Model of `std::complex<Scalar>`: a pair of scalars. -/
abbrev CElem := SElem × SElem

/-- The element type `T` of the value-domain container for each kind. -/
def ValueElem : Kind → Type
  | Kind.realSingle => SElem
  | Kind.complexSingle => CElem
  | Kind.realDouble => SElem
  | Kind.complexDouble => CElem

/-- The value-initialized (zero) element used by `AlignedVector<T>(N)`. -/
def valueZero : (k : Kind) → ValueElem k
  | Kind.realSingle => (0 : SElem)
  | Kind.complexSingle => ((0 : SElem), (0 : SElem))
  | Kind.realDouble => (0 : SElem)
  | Kind.complexDouble => ((0 : SElem), (0 : SElem))

/-- `Fft<T>::valueVector()` (src/pffft.hpp lines 692-697):
`AlignedVector<T>(length)`. -/
def valueVector (s : FftState) : List (ValueElem s.kind) :=
  List.replicate s.length.toNat (valueZero s.kind)

/-- `Fft<T>::spectrumVector()` (src/pffft.hpp lines 699-704):
`AlignedVector<Complex>(getSpectrumSize())`. -/
def spectrumVector (s : FftState) : List CElem :=
  List.replicate (getSpectrumSize s).toNat ((0 : SElem), (0 : SElem))

/-- `Fft<T>::internalLayoutVector()` (src/pffft.hpp lines 706-711):
`AlignedVector<Scalar>(getInternalLayoutSize())`. -/
def internalLayoutVector (s : FftState) : List SElem :=
  List.replicate (getInternalLayoutSize s).toNat (0 : SElem)

/-- Reachability invariant of the facade: the scratch pointer is live
exactly when the current length is above the stack threshold, and a
live scratch buffer holds one internal-layout spectrum of scalars.
Established by the constructor and preserved by `prepareLength`. -/
def FftInv (s : FftState) : Prop :=
  s.work = (if s.stackThresholdLen < s.length
            then some (scalarsPerElem s.kind * s.length) else none)

instance (s : FftState) : Decidable (FftInv s) := by
  unfold FftInv; infer_instance

/-! ## Concrete states and engine models used by the witnesses -/

/-- An engine model whose `new_setup` always succeeds. -/
def engineOk : Int → Kind → Option Nat := fun _ _ => some 1

/-- A facade state with a stack-resident scratch decision
(`length = 4 ≤ stackThresholdLen = 4096`, `work = NULL`). -/
def sStack : FftState :=
  { kind := Kind.realSingle, setupSelf := none, work := none,
    length := 4, stackThresholdLen := 4096 }

/-- A facade state with a heap-resident scratch buffer
(`length = 8 > stackThresholdLen = 4`, complex kind, so the buffer
holds `2 * 8 = 16` scalars). -/
def sHeap : FftState :=
  { kind := Kind.complexSingle, setupSelf := some 1, work := some 16,
    length := 8, stackThresholdLen := 4 }

/-! ## Spec-modelled numeric engine

The numeric kernels live in `pffft.c` / `pffft_double.c`, which are not
under `src/`; only their declarations reach `pffft.hpp`.  Their
behaviour is therefore modelled from the spec, over exact complex
arithmetic (the spec states the transforms up to floating-point
rounding; the model realises the stated identities exactly). -/

open Finset

/-- `pffft_direction_t`: `PFFFT_FORWARD` / `PFFFT_BACKWARD`. -/
inductive Direction
  | fwd
  | bwd
  deriving DecidableEq, Repr

/-- The primitive `N`-th root of unity used by the ideal DFT model. -/
noncomputable def omegaC (N : ℕ) : ℂ :=
  Complex.exp (2 * (Real.pi : ℂ) * Complex.I / (N : ℂ))

/-- Modelled from the spec: `pffft_transform_ordered` on a
complex-kind setup (the engine source is not under `src/`).  Index
`k < N/2` carries frequency `k·Fs/N` and `k ≥ N/2` the negative
frequency `(k−N)·Fs/N` (spec §4.4), which is exactly the unscaled DFT
with kernel `ω⁻¹ = exp(−2πi/N)` forward and `ω` backward. -/
noncomputable def engineTransformOrderedC (N : ℕ) (inp : ℕ → ℂ) (d : Direction) : ℕ → ℂ :=
  match d with
  | Direction.fwd => fun k => ∑ n in range N, inp n * (omegaC N)⁻¹ ^ (k * n)
  | Direction.bwd => fun n => ∑ k in range N, inp k * (omegaC N) ^ (k * n)

/-- `Fft<T>::forward` (src/pffft.hpp lines 787-796) for the complex
kinds: calls `setup.transform_ordered(..., PFFFT_FORWARD)`. -/
noncomputable def fftForwardC (N : ℕ) (x : ℕ → ℂ) : ℕ → ℂ :=
  engineTransformOrderedC N x Direction.fwd

/-- `Fft<T>::inverse` (src/pffft.hpp lines 798-807) for the complex
kinds: calls `setup.transform_ordered(..., PFFFT_BACKWARD)`. -/
noncomputable def fftInverseC (N : ℕ) (S : ℕ → ℂ) : ℕ → ℂ :=
  engineTransformOrderedC N S Direction.bwd

/-- The full-length DFT of a real-valued input (the engine's underlying
spectrum before packing). -/
noncomputable def dftR (N : ℕ) (x : ℕ → ℝ) : ℕ → ℂ :=
  fftForwardC N (fun m => (x m : ℂ))

/-- Modelled from the spec: `Fft<T>::forward` for the real kinds
(`transform_ordered` forward on a `PFFFT_REAL` setup).  The output has
`N/2` complex entries; entry `0` packs DC in its real part and the
Nyquist term in its imaginary part (`F(0)+i·F(N/2)`, spec §4.4), and
entry `k` for `1 ≤ k < N/2` is the DFT coefficient `F(k)`. -/
noncomputable def fftForwardR (N : ℕ) (x : ℕ → ℝ) : ℕ → ℂ := fun k =>
  if k = 0 then ((dftR N x 0).re : ℂ) + ((dftR N x (N / 2)).re : ℂ) * Complex.I
  else dftR N x k

/-- Modelled from the spec: the adjoint of the real-kind packing
convention — rebuild the full conjugate-symmetric spectrum from the
packed half-spectrum (DC from `re`, Nyquist from `im` of entry 0,
conjugate mirror above `N/2`). -/
noncomputable def unpackR (N : ℕ) (S : ℕ → ℂ) : ℕ → ℂ := fun j =>
  if j = 0 then ((S 0).re : ℂ)
  else if j = N / 2 then ((S 0).im : ℂ)
  else if j < N / 2 then S j
  else (starRingEnd ℂ) (S (N - j))

/-- Modelled from the spec: `Fft<T>::inverse` for the real kinds
(`transform_ordered` backward on a `PFFFT_REAL` setup), "the exact
adjoint of forward's layout convention", unscaled. -/
noncomputable def fftInverseR (N : ℕ) (S : ℕ → ℂ) : ℕ → ℝ := fun n =>
  (∑ j in range N, unpackR N S j * (omegaC N) ^ (j * n)).re

/-- Split a list into its even-indexed and odd-indexed elements. -/
def deinterleave {α : Type} : List α → List α × List α
  | [] => ([], [])
  | a :: l => (a :: (deinterleave l).2, (deinterleave l).1)

/-- Inverse of `deinterleave`: alternate elements of the two lists. -/
def interleave {α : Type} : List α → List α → List α
  | [], ys => ys
  | x :: xs, ys => x :: interleave ys xs
termination_by xs ys => xs.length + ys.length
decreasing_by simp; omega

/-- Modelled from the spec: the engine-private internal z-domain layout
(`pffft_transform` output; the engine source is not under `src/`).  The
spec keeps the layout opaque and pins only its consistency with
`reorder`; the model realises it as a concrete permutation of the
ordered spectrum: even-indexed entries first, then odd-indexed. -/
def internalOfOrdered {α : Type} (l : List α) : List α :=
  (deinterleave l).1 ++ (deinterleave l).2

/-- Modelled from the spec: `pffft_zreorder` with `PFFFT_FORWARD`
(internal layout → canonical order), the inverse of the
`internalOfOrdered` permutation. -/
def reorderFwd {α : Type} (l : List α) : List α :=
  interleave (l.take ((l.length + 1) / 2)) (l.drop ((l.length + 1) / 2))

/-- The ordered spectrum of `Fft<T>::forward` (complex kinds) as a
list of `N` complex entries. -/
noncomputable def fftForwardListC (N : ℕ) (x : ℕ → ℂ) : List ℂ :=
  (List.range N).map (fftForwardC N x)

/-- The ordered packed spectrum of `Fft<T>::forward` (real kinds) as a
list of `N/2` complex entries. -/
noncomputable def fftForwardListR (N : ℕ) (x : ℕ → ℝ) : List ℂ :=
  (List.range (N / 2)).map (fftForwardR N x)

/-- `Fft<T>::forwardToInternalLayout` (src/pffft.hpp lines 809-818)
for the complex kinds: `setup.transform(..., PFFFT_FORWARD)`, i.e. the
forward spectrum in the engine-private layout. -/
noncomputable def fftForwardToInternalLayoutC (N : ℕ) (x : ℕ → ℂ) : List ℂ :=
  internalOfOrdered (fftForwardListC N x)

/-- `Fft<T>::forwardToInternalLayout` for the real kinds. -/
noncomputable def fftForwardToInternalLayoutR (N : ℕ) (x : ℕ → ℝ) : List ℂ :=
  internalOfOrdered (fftForwardListR N x)

/-- `Fft<T>::reorderSpectrum` (src/pffft.hpp lines 831-836): calls
`setup.reorder(input, output, PFFFT_FORWARD)`, converting an
internal-layout spectrum to canonical order. -/
def fftReorderSpectrum (l : List ℂ) : List ℂ := reorderFwd l


/-! ## Helper lemmas about the facade's `prepareLength` -/

theorem prep_skip (create : Int → Kind → Option Nat) (s : FftState) (N : Int)
    (h : decide (s.stackThresholdLen < N) = s.work.isSome ∧ N = s.length) :
    fftPrepareLength create s N = (s, []) := by
  simp only [fftPrepareLength, if_pos h]

theorem prep_go (create : Int → Kind → Option Nat) (s : FftState) (N : Int)
    (h : ¬(decide (s.stackThresholdLen < N) = s.work.isSome ∧ N = s.length)) :
    fftPrepareLength create s N =
      ({ s with
          length := N,
          setupSelf := (setupPrepareLength create s.kind s.setupSelf N).1,
          work := if s.stackThresholdLen < N
                  then some (scalarsPerElem s.kind * N) else none },
        (setupPrepareLength create s.kind s.setupSelf N).2
          ++ (if s.work.isSome then [Event.alignedFreeCall s.work] else [])
          ++ (if s.stackThresholdLen < N
              then [Event.allocWork N s.kind] else [])) := by
  simp only [fftPrepareLength, if_neg h]

theorem prep_fst_length (create : Int → Kind → Option Nat) (s : FftState) (N : Int) :
    ((fftPrepareLength create s N).1).length = N := by
  by_cases h : decide (s.stackThresholdLen < N) = s.work.isSome ∧ N = s.length
  · rw [prep_skip create s N h]; exact h.2.symm
  · rw [prep_go create s N h]

theorem prep_fst_th (create : Int → Kind → Option Nat) (s : FftState) (N : Int) :
    ((fftPrepareLength create s N).1).stackThresholdLen = s.stackThresholdLen ∧
    ((fftPrepareLength create s N).1).kind = s.kind := by
  by_cases h : decide (s.stackThresholdLen < N) = s.work.isSome ∧ N = s.length
  · rw [prep_skip create s N h]; exact ⟨rfl, rfl⟩
  · rw [prep_go create s N h]; exact ⟨rfl, rfl⟩

theorem prep_fst_work (create : Int → Kind → Option Nat) (s : FftState) (N : Int)
    (hInv : FftInv s) :
    ((fftPrepareLength create s N).1).work =
      (if s.stackThresholdLen < N then some (scalarsPerElem s.kind * N) else none) := by
  by_cases h : decide (s.stackThresholdLen < N) = s.work.isSome ∧ N = s.length
  · rw [prep_skip create s N h, hInv, h.2]
  · rw [prep_go create s N h]

theorem prep_inv (create : Int → Kind → Option Nat) (s : FftState) (N : Int)
    (hInv : FftInv s) : FftInv ((fftPrepareLength create s N).1) := by
  unfold FftInv
  rw [prep_fst_work create s N hInv, prep_fst_length create s N,
    (prep_fst_th create s N).1, (prep_fst_th create s N).2]

theorem init_inv (create : Int → Kind → Option Nat) (k : Kind) (len th : Int) :
    FftInv ((fftInit create k len th).1) := by
  unfold fftInit
  by_cases h : decide (th < len) =
      (Option.isSome (none : Option Int)) ∧ len = (0 : Int)
  · have h2 : decide (th < len) = false := by simpa using h.1
    rw [prep_skip]
    · unfold FftInv
      simp only []
      rw [if_neg]
      simp only [h.2] at h2 ⊢
      simpa using h2
    · exact h
  · rw [prep_go _ _ _ h]
    unfold FftInv
    rfl

theorem second_call_skips (create : Int → Kind → Option Nat) (s : FftState) (N : Int) :
    fftPrepareLength create ((fftPrepareLength create s N).1) N =
      ((fftPrepareLength create s N).1, []) := by
  apply prep_skip
  constructor
  · rw [(prep_fst_th create s N).1]
    by_cases h : decide (s.stackThresholdLen < N) = s.work.isSome ∧ N = s.length
    · rw [prep_skip create s N h]; exact h.1
    · rw [prep_go create s N h]
      simp only []
      by_cases hh : s.stackThresholdLen < N
      · simp [hh]
      · simp [hh]
  · exact (prep_fst_length create s N).symm

theorem no_free_in_setup (create : Int → Kind → Option Nat) (k : Kind)
    (self : Option Nat) (len : Int) (w : Option Int) :
    Event.alignedFreeCall w ∉ (setupPrepareLength create k self len).2 := by
  unfold setupPrepareLength destroyIfLive
  cases k <;> cases self <;> split_ifs <;> simp

theorem no_alloc_in_setup (create : Int → Kind → Option Nat) (k : Kind)
    (self : Option Nat) (len : Int) (L : Int) (K : Kind) :
    Event.allocWork L K ∉ (setupPrepareLength create k self len).2 := by
  unfold setupPrepareLength destroyIfLive
  cases k <;> cases self <;> split_ifs <;> simp

theorem work_isSome_of_inv (s : FftState) (hInv : FftInv s) :
    s.work.isSome = decide (s.stackThresholdLen < s.length) := by
  rw [hInv]; by_cases h : s.stackThresholdLen < s.length <;> simp [h]

theorem scalarsPerElem_mul (k : Kind) (N : Int) :
    scalarsPerElem k * N = (if isComplexTransform k then 2 * N else N) := by
  unfold scalarsPerElem
  by_cases h : isComplexTransform k <;> simp [h]

/-! ## Claims -/

/-- C1: the spec states that for every supported numeric kind the Setup
wrapper exposes `convolveAccumulate` and the facade forwards to it, in
particular for the complex-single kind.  The code contradicts its own
generic facade: `Fft<T>::convolveAccumulate` is declared and documented
for every `T` and forwards to `setup.convolveAccumulate`, but the
`Setup<std::complex<float>>` specialization defines no
`convolveAccumulate` member, so the forwarder cannot be instantiated
for the complex-single kind (while the other three kinds have it). -/
theorem claim_C1 :
    fftHasConvolveAccumulate Kind.complexSingle = false ∧
    (setupOps Kind.complexSingle).hasConvolveAccumulate = false ∧
    (setupOps Kind.complexSingle).hasConvolve = true ∧
    (setupOps Kind.realSingle).hasConvolveAccumulate = true ∧
    (setupOps Kind.realDouble).hasConvolveAccumulate = true ∧
    (setupOps Kind.complexDouble).hasConvolveAccumulate = true ∧
    ∀ k, fftHasConvolveAccumulate k = (setupOps k).hasConvolveAccumulate :=
  ⟨rfl, rfl, rfl, rfl, rfl, rfl, fun _ => rfl⟩

/-- C2 counterexample: the claim says `prepareLength(newLength)` with
`newLength <= 0` goes to Empty and releases any handle *without
creating a new one*, for every kind.  For the real-single kind at
`newLength = 0` the wrapper nevertheless issues a `createSetup` engine
call (`self = pffft_new_setup(length, PFFFT_REAL)` is unconditional). -/
theorem claim_C2_counterexample :
    Event.createSetup 0 Kind.realSingle ∈
      (setupPrepareLength (fun _ _ => none) Kind.realSingle none 0).2 := by
  decide

/-- C2 (amended): only the real-double Setup guards creation with
`newLength > 0` (going to Empty, handle null, without creating, when
`newLength <= 0`); the real-single, complex-single and complex-double
Setups destroy any existing handle and then unconditionally call
`createSetup(newLength, kind)` on every call, whatever the sign of
`newLength`. -/
theorem claim_C2 (create : Int → Kind → Option Nat)
    (self : Option Nat) (len : Int) :
    (setupPrepareLength create Kind.realDouble self len
      = (if 0 < len then create len Kind.realDouble else none,
         destroyIfLive self ++
           (if 0 < len then [Event.createSetup len Kind.realDouble] else []))) ∧
    (setupPrepareLength create Kind.realSingle self len
      = (create len Kind.realSingle,
         destroyIfLive self ++ [Event.createSetup len Kind.realSingle])) ∧
    (setupPrepareLength create Kind.complexSingle self len
      = (create len Kind.complexSingle,
         destroyIfLive self ++ [Event.createSetup len Kind.complexSingle])) ∧
    (setupPrepareLength create Kind.complexDouble self len
      = (create len Kind.complexDouble,
         destroyIfLive self ++ [Event.createSetup len Kind.complexDouble])) := by
  refine ⟨?_, rfl, rfl, rfl⟩
  unfold setupPrepareLength
  by_cases h : 0 < len <;> simp [h]

/-- C3: starting from a reachable facade state, `prepareLength(N)` does
no work at all (state unchanged, no engine or allocator call) exactly
when the heap/stack placement class and `N` both equal those of the
previously prepared state; in every other case it stores `N`, reinvokes
the Setup wrapper's `prepareLength` (its engine calls head the trace and
its handle is adopted), ends with a scratch buffer that is heap-allocated
if and only if `N > stackThresholdLen`, frees the previous scratch buffer
exactly when one existed, and allocates exactly when the new length is
above the threshold. -/
theorem claim_C3 (create : Int → Kind → Option Nat) (s : FftState) (N : Int)
    (hInv : FftInv s) :
    (fftPrepareLength create s N = (s, []) ↔
      ((s.stackThresholdLen < N ↔ s.stackThresholdLen < s.length) ∧ N = s.length)) ∧
    (¬((s.stackThresholdLen < N ↔ s.stackThresholdLen < s.length) ∧ N = s.length) →
      ((fftPrepareLength create s N).1.length = N ∧
       (fftPrepareLength create s N).1.setupSelf
         = (setupPrepareLength create s.kind s.setupSelf N).1 ∧
       (∃ rest, (fftPrepareLength create s N).2
         = (setupPrepareLength create s.kind s.setupSelf N).2 ++ rest) ∧
       (fftPrepareLength create s N).1.work
         = (if s.stackThresholdLen < N then some (scalarsPerElem s.kind * N) else none) ∧
       (Event.alignedFreeCall s.work ∈ (fftPrepareLength create s N).2 ↔ s.work.isSome) ∧
       (Event.allocWork N s.kind ∈ (fftPrepareLength create s N).2 ↔
         s.stackThresholdLen < N))) := by
  have hWork := work_isSome_of_inv s hInv
  have hcond : (decide (s.stackThresholdLen < N) = s.work.isSome ∧ N = s.length) ↔
      ((s.stackThresholdLen < N ↔ s.stackThresholdLen < s.length) ∧ N = s.length) := by
    rw [hWork]
    constructor
    · rintro ⟨h1, h2⟩
      subst h2
      exact ⟨Iff.rfl, rfl⟩
    · rintro ⟨h1, h2⟩
      subst h2
      exact ⟨rfl, rfl⟩
  constructor
  · constructor
    · intro hEq
      by_cases h : decide (s.stackThresholdLen < N) = s.work.isSome ∧ N = s.length
      · exact hcond.mp h
      · exfalso
        rw [prep_go create s N h] at hEq
        have hN : N = s.length := by
          have := congrArg (fun p => p.1.length) hEq
          simpa using this
        apply h
        refine ⟨?_, hN⟩
        rw [hWork, hN]
    · intro hC
      exact prep_skip create s N (hcond.mpr hC)
  · intro hC
    have h : ¬(decide (s.stackThresholdLen < N) = s.work.isSome ∧ N = s.length) := by
      intro hx; exact hC (hcond.mp hx)
    rw [prep_go create s N h]
    refine ⟨rfl, rfl, ⟨_, List.append_assoc _ _ _⟩, rfl, ?_, ?_⟩
    · simp only [List.mem_append]
      constructor
      · rintro ((hm | hm) | hm)
        · exact absurd hm (no_free_in_setup create s.kind s.setupSelf N s.work)
        · by_cases hw : s.work.isSome
          · exact hw
          · simp [hw] at hm
        · by_cases ha : s.stackThresholdLen < N <;> simp [ha] at hm
      · intro hw
        left; right; simp [hw]
    · simp only [List.mem_append]
      constructor
      · rintro ((hm | hm) | hm)
        · exact absurd hm (no_alloc_in_setup create s.kind s.setupSelf N N s.kind)
        · by_cases hw : s.work.isSome <;> simp [hw] at hm
        · by_cases ha : s.stackThresholdLen < N
          · exact ha
          · simp [ha] at hm
      · intro ha
        right; simp [ha]

/-- C3 witness: from the reachable stack-placement state `sStack`
(length 4, threshold 4096), `prepareLength(8)` takes the working branch
and stores the new length. -/
theorem claim_C3_witness :
    FftInv sStack ∧ (fftPrepareLength engineOk sStack 8).1.length = 8 :=
  ⟨by decide, ((claim_C3 engineOk sStack 8 (by decide)).2 (by decide)).1⟩

/-- C4: for every kind and every prepared length `N >= 0`,
`getSpectrumSize` is `N` for complex kinds and `N/2` (C++ integer
division) for real kinds, `getInternalLayoutSize` is `2N` for complex
kinds and `N` for real kinds, and the three container helpers return
containers pre-sized to exactly `N`, `getSpectrumSize()` and
`getInternalLayoutSize()` respectively. -/
theorem claim_C4 (s : FftState) (h : 0 ≤ s.length) :
    getSpectrumSize s = (if isComplexTransform s.kind then s.length else Int.tdiv s.length 2) ∧
    getInternalLayoutSize s = (if isComplexTransform s.kind then 2 * s.length else s.length) ∧
    ((valueVector s).length : Int) = s.length ∧
    ((spectrumVector s).length : Int) = getSpectrumSize s ∧
    ((internalLayoutVector s).length : Int) = getInternalLayoutSize s := by
  have hs : 0 ≤ getSpectrumSize s := by
    unfold getSpectrumSize
    by_cases hc : isComplexTransform s.kind
    · simpa [hc] using h
    · simp only [hc, if_false]
      exact Int.tdiv_nonneg h (by norm_num)
  have hi : 0 ≤ getInternalLayoutSize s := by
    unfold getInternalLayoutSize
    by_cases hc : isComplexTransform s.kind
    · simp only [hc, if_true]; omega
    · simpa [hc] using h
  refine ⟨rfl, rfl, ?_, ?_, ?_⟩
  · simp [valueVector, Int.toNat_of_nonneg h]
  · simp [spectrumVector, Int.toNat_of_nonneg hs]
  · simp [internalLayoutVector, Int.toNat_of_nonneg hi]

/-- C4 witness: on the concrete state `sStack` (real kind, length 4)
the spectrum container is pre-sized to `getSpectrumSize() = 2`. -/
theorem claim_C4_witness :
    (0 : Int) ≤ sStack.length ∧
    ((spectrumVector sStack).length : Int) = getSpectrumSize sStack :=
  ⟨by decide, (claim_C4 sStack (by decide)).2.2.2.1⟩

/-- C5: immediately after any `prepareLength(N)` call — including the
one issued by the constructor on its `length` argument — `getLength()`
returns `N` (proved for every starting state and every `N`, with no
sign restriction, which subsumes the claim's `N >= 0`). -/
theorem claim_C5 (create : Int → Kind → Option Nat) (s : FftState) (N : Int)
    (k : Kind) (len th : Int) :
    getLength ((fftPrepareLength create s N).1) = N ∧
    getLength ((fftInit create k len th).1) = len :=
  ⟨prep_fst_length create s N, prep_fst_length _ _ len⟩

/-- C8: starting from a reachable facade state, after `prepareLength(N)`
the scratch buffer is live exactly when `N` exceeds the stack threshold,
a live buffer holds exactly `getInternalLayoutSize()` scalars, the
facade's destructor issues the aligned-free call on the buffer, and
whenever the heap/stack decision or the length changes the old buffer
(if any) is freed and a new one is allocated exactly when the new
length is above the threshold. -/
theorem claim_C8 (create : Int → Kind → Option Nat) (s : FftState) (N : Int)
    (hInv : FftInv s) :
    ((fftPrepareLength create s N).1.work
       = (if s.stackThresholdLen < N then some (scalarsPerElem s.kind * N) else none)) ∧
    ((fftPrepareLength create s N).1.work ≠ none ↔ s.stackThresholdLen < N) ∧
    (∀ sz, (fftPrepareLength create s N).1.work = some sz →
       sz = getInternalLayoutSize ((fftPrepareLength create s N).1)) ∧
    (fftDestruct ((fftPrepareLength create s N).1)
       = [Event.alignedFreeCall ((fftPrepareLength create s N).1.work)]) ∧
    (¬((s.stackThresholdLen < N ↔ s.stackThresholdLen < s.length) ∧ N = s.length) →
      ((s.work.isSome = true →
         Event.alignedFreeCall s.work ∈ (fftPrepareLength create s N).2) ∧
       (s.stackThresholdLen < N →
         Event.allocWork N s.kind ∈ (fftPrepareLength create s N).2))) := by
  have hW := prep_fst_work create s N hInv
  refine ⟨hW, ?_, ?_, rfl, ?_⟩
  · rw [hW]
    by_cases h : s.stackThresholdLen < N <;> simp [h]
  · intro sz hsz
    rw [hW] at hsz
    by_cases h : s.stackThresholdLen < N
    · rw [if_pos h] at hsz
      have hsz2 : sz = scalarsPerElem s.kind * N := (Option.some_inj.mp hsz).symm
      rw [hsz2]
      unfold getInternalLayoutSize
      rw [(prep_fst_th create s N).2, prep_fst_length create s N]
      exact scalarsPerElem_mul s.kind N
    · rw [if_neg h] at hsz
      exact absurd hsz (by simp)
  · intro hC
    have hWork := work_isSome_of_inv s hInv
    have h : ¬(decide (s.stackThresholdLen < N) = s.work.isSome ∧ N = s.length) := by
      rintro ⟨h1, h2⟩
      apply hC
      subst h2
      exact ⟨Iff.rfl, rfl⟩
    rw [prep_go create s N h]
    constructor
    · intro hw
      simp only [List.mem_append]
      left; right; simp [hw]
    · intro ha
      simp only [List.mem_append]
      right; simp [ha]

/-- C8 witness: from the reachable heap-placement state `sHeap`
(complex kind, length 8, threshold 4, 16-scalar buffer), shrinking to
length 2 moves the scratch buffer back to the stack (`work` null). -/
theorem claim_C8_witness :
    FftInv sHeap ∧
    ((fftPrepareLength engineOk sHeap 2).1.work ≠ none ↔ sHeap.stackThresholdLen < 2) :=
  ⟨by decide, (claim_C8 engineOk sHeap 2 (by decide)).2.1⟩

/-- C9: calling the facade's `prepareLength` twice in a row with the
same `N` leaves everything unchanged the second time: the resulting
state (length, scratch pointer, Setup handle) is exactly the state
after the first call and the second call performs no engine or
allocator call at all. -/
theorem claim_C9 (create : Int → Kind → Option Nat) (s : FftState) (N : Int) :
    fftPrepareLength create ((fftPrepareLength create s N).1) N
      = ((fftPrepareLength create s N).1, []) :=
  second_call_skips create s N

/-- C10: every `Setup<T>` destructor invokes the engine's
`destroy_setup` even from the Empty state, passing the null handle
instead of skipping the call. -/
theorem claim_C10 (k : Kind) :
    setupDestruct k none = [Event.destroySetup none] := by
  cases k <;> rfl


/-! ## Lemmas about the spec-modelled engine -/

theorem omegaC_ne_zero (N : ℕ) : omegaC N ≠ 0 :=
  Complex.exp_ne_zero _

theorem omegaC_prim (N : ℕ) (hN : N ≠ 0) : IsPrimitiveRoot (omegaC N) N := by
  unfold omegaC
  exact Complex.isPrimitiveRoot_exp N hN

theorem kernel_collapse (z : ℂ) (hz : z ≠ 0) (k m n : ℕ) :
    (z⁻¹) ^ (k * m) * z ^ (k * n) = (z ^ ((n : ℤ) - (m : ℤ))) ^ k := by
  rw [inv_pow, ← zpow_natCast z (k * m), ← zpow_natCast z (k * n), ← zpow_neg,
    ← zpow_add₀ hz, ← zpow_natCast (z ^ ((n : ℤ) - (m : ℤ))) k, ← zpow_mul]
  congr 1
  push_cast
  ring

theorem orth (N : ℕ) (hN : 0 < N) (m n : ℕ) (hm : m < N) (hn : n < N) :
    ∑ k in range N, (omegaC N)⁻¹ ^ (k * m) * (omegaC N) ^ (k * n)
      = if m = n then (N : ℂ) else 0 := by
  have hz := omegaC_ne_zero N
  have hpr := omegaC_prim N hN.ne'
  by_cases h : m = n
  · subst h
    rw [if_pos rfl]
    have h1 : ∀ k ∈ range N, (omegaC N)⁻¹ ^ (k * m) * (omegaC N) ^ (k * m) = 1 := by
      intro k _
      rw [← mul_pow, inv_mul_cancel₀ hz, one_pow]
    rw [Finset.sum_congr rfl h1]
    simp
  · rw [if_neg h]
    have hd : ((n : ℤ) - (m : ℤ)) ≠ 0 := by omega
    have hc : (omegaC N) ^ ((n : ℤ) - (m : ℤ)) ≠ 1 := by
      intro hc1
      have hdvd := (hpr.zpow_eq_one_iff_dvd _).mp hc1
      have habs : ((n : ℤ) - (m : ℤ)).natAbs < ((N : ℤ)).natAbs := by omega
      exact hd (Int.eq_zero_of_dvd_of_natAbs_lt_natAbs hdvd habs)
    have h2 : ∀ k ∈ range N, (omegaC N)⁻¹ ^ (k * m) * (omegaC N) ^ (k * n)
        = ((omegaC N) ^ ((n : ℤ) - (m : ℤ))) ^ k := by
      intro k _
      exact kernel_collapse (omegaC N) hz k m n
    rw [Finset.sum_congr rfl h2, geom_sum_eq hc N]
    have hnum : ((omegaC N) ^ ((n : ℤ) - (m : ℤ))) ^ N = 1 := by
      rw [← zpow_natCast ((omegaC N) ^ ((n : ℤ) - (m : ℤ))) N, ← zpow_mul,
        mul_comm, zpow_mul, zpow_natCast, hpr.pow_eq_one, one_zpow]
    rw [hnum]
    simp

theorem roundC (N : ℕ) (hN : 0 < N) (x : ℕ → ℂ) (n : ℕ) (hn : n < N) :
    fftInverseC N (fftForwardC N x) n = (N : ℂ) * x n := by
  unfold fftInverseC fftForwardC engineTransformOrderedC
  simp only []
  calc
    ∑ k in range N, (∑ m in range N, x m * (omegaC N)⁻¹ ^ (k * m)) * (omegaC N) ^ (k * n)
        = ∑ k in range N, ∑ m in range N,
            x m * ((omegaC N)⁻¹ ^ (k * m) * (omegaC N) ^ (k * n)) := by
          refine Finset.sum_congr rfl fun k _ => ?_
          rw [Finset.sum_mul]
          exact Finset.sum_congr rfl fun m _ => mul_assoc _ _ _
    _ = ∑ m in range N, ∑ k in range N,
            x m * ((omegaC N)⁻¹ ^ (k * m) * (omegaC N) ^ (k * n)) := Finset.sum_comm
    _ = ∑ m in range N, x m *
            ∑ k in range N, (omegaC N)⁻¹ ^ (k * m) * (omegaC N) ^ (k * n) := by
          exact Finset.sum_congr rfl fun m _ => (Finset.mul_sum _ _ _).symm
    _ = ∑ m in range N, x m * (if m = n then (N : ℂ) else 0) := by
          refine Finset.sum_congr rfl fun m hm => ?_
          rw [orth N hN m n (Finset.mem_range.mp hm) hn]
    _ = (N : ℂ) * x n := by
          rw [Finset.sum_eq_single n]
          · rw [if_pos rfl, mul_comm]
          · intro m _ hmn
            rw [if_neg hmn, mul_zero]
          · intro hnn
            exact absurd (Finset.mem_range.mpr hn) hnn

theorem conj_omegaC (N : ℕ) : (starRingEnd ℂ) (omegaC N) = (omegaC N)⁻¹ := by
  unfold omegaC
  rw [← Complex.exp_conj, ← Complex.exp_neg]
  congr 1
  simp [map_div₀, Complex.conj_I, map_ofNat]
  ring

theorem dftR_zero (N : ℕ) (x : ℕ → ℝ) :
    dftR N x 0 = ((∑ m in range N, x m : ℝ) : ℂ) := by
  unfold dftR fftForwardC engineTransformOrderedC
  push_cast
  simp

theorem omegaC_pow_half (h : ℕ) (hh : h ≠ 0) : (omegaC (2 * h)) ^ h = -1 := by
  unfold omegaC
  rw [← Complex.exp_nat_mul]
  have harg : (h : ℂ) * (2 * (Real.pi : ℂ) * Complex.I / ((2 * h : ℕ) : ℂ))
      = (Real.pi : ℂ) * Complex.I := by
    have hc : ((h : ℂ)) ≠ 0 := Nat.cast_ne_zero.mpr hh
    push_cast
    field_simp
    ring
  rw [harg, Complex.exp_pi_mul_I]

theorem neg_one_pow_inv_eq (m : ℕ) : ((-1 : ℂ) ^ m)⁻¹ = (-1 : ℂ) ^ m := by
  have h1 : ((-1 : ℂ) ^ m) * ((-1 : ℂ) ^ m) = 1 := by
    rw [← mul_pow]
    norm_num
  exact (eq_inv_of_mul_eq_one_left h1).symm

theorem dftR_half (h : ℕ) (hh : h ≠ 0) (x : ℕ → ℝ) :
    dftR (2 * h) x h = ((∑ m in range (2 * h), x m * (-1 : ℝ) ^ m : ℝ) : ℂ) := by
  unfold dftR fftForwardC engineTransformOrderedC
  simp only []
  push_cast
  refine Finset.sum_congr rfl fun m _ => ?_
  rw [inv_pow, pow_mul, omegaC_pow_half h hh]
  rw [neg_one_pow_inv_eq]

theorem pow_compl (z : ℂ) {N : ℕ} (hz1 : z ^ N = 1) (a b m : ℕ) (hab : a + b = N) :
    (z⁻¹) ^ (a * m) = z ^ (b * m) := by
  have hmul : z ^ (b * m) * z ^ (a * m) = 1 := by
    rw [← pow_add]
    have h2 : b * m + a * m = N * m := by rw [← add_mul, Nat.add_comm b a, hab]
    rw [h2, pow_mul, hz1, one_pow]
  rw [inv_pow]
  exact (eq_inv_of_mul_eq_one_left hmul).symm

theorem dftR_symm (N : ℕ) (hN : N ≠ 0) (x : ℕ → ℝ) (a b : ℕ) (hab : a + b = N) :
    dftR N x a = (starRingEnd ℂ) (dftR N x b) := by
  unfold dftR fftForwardC engineTransformOrderedC
  simp only []
  rw [map_sum]
  refine Finset.sum_congr rfl fun m _ => ?_
  rw [map_mul, Complex.conj_ofReal, map_pow, map_inv₀, conj_omegaC, inv_inv]
  congr 1
  exact pow_compl (omegaC N) ((omegaC_prim N hN).pow_eq_one) a b m hab

theorem unpack_pack (h : ℕ) (hh : h ≠ 0) (x : ℕ → ℝ) (j : ℕ) (hj : j < 2 * h) :
    unpackR (2 * h) (fftForwardR (2 * h) x) j = dftR (2 * h) x j := by
  have hN2 : (2 * h) / 2 = h := Nat.mul_div_cancel_left h (by norm_num)
  unfold unpackR
  rw [hN2]
  by_cases hj0 : j = 0
  · subst hj0
    rw [if_pos rfl]
    have hS0 : fftForwardR (2 * h) x 0
        = ((dftR (2 * h) x 0).re : ℂ)
          + ((dftR (2 * h) x ((2 * h) / 2)).re : ℂ) * Complex.I := by
      unfold fftForwardR
      rw [if_pos rfl]
    rw [hS0, dftR_zero]
    simp
  · rw [if_neg hj0]
    by_cases hjh : j = h
    · rw [if_pos hjh, hjh]
      have hS0 : fftForwardR (2 * h) x 0
          = ((dftR (2 * h) x 0).re : ℂ)
            + ((dftR (2 * h) x ((2 * h) / 2)).re : ℂ) * Complex.I := by
        unfold fftForwardR
        rw [if_pos rfl]
      rw [hS0, hN2]
      have him : (((dftR (2 * h) x 0).re : ℂ)
          + ((dftR (2 * h) x h).re : ℂ) * Complex.I).im
          = (dftR (2 * h) x h).re := by
        simp
      rw [him, dftR_half h hh, Complex.ofReal_re]
    · rw [if_neg hjh]
      by_cases hjlt : j < h
      · rw [if_pos hjlt]
        unfold fftForwardR
        rw [if_neg hj0]
      · rw [if_neg hjlt]
        have hj1 : (2 * h) - j ≠ 0 := by omega
        have hab : j + ((2 * h) - j) = 2 * h := by omega
        have hS : fftForwardR (2 * h) x ((2 * h) - j)
            = dftR (2 * h) x ((2 * h) - j) := by
          unfold fftForwardR
          rw [if_neg hj1]
        rw [hS]
        exact (dftR_symm (2 * h) (by omega) x j ((2 * h) - j) hab).symm

theorem roundR (h : ℕ) (hh : 0 < h) (x : ℕ → ℝ) (n : ℕ) (hn : n < 2 * h) :
    fftInverseR (2 * h) (fftForwardR (2 * h) x) n = ((2 * h : ℕ) : ℝ) * x n := by
  unfold fftInverseR
  have hsum : ∑ j in range (2 * h),
      unpackR (2 * h) (fftForwardR (2 * h) x) j * (omegaC (2 * h)) ^ (j * n)
      = ∑ j in range (2 * h), dftR (2 * h) x j * (omegaC (2 * h)) ^ (j * n) :=
    Finset.sum_congr rfl fun j hj => by
      rw [unpack_pack h hh.ne' x j (Finset.mem_range.mp hj)]
  rw [hsum]
  have heq : ∑ j in range (2 * h), dftR (2 * h) x j * (omegaC (2 * h)) ^ (j * n)
      = fftInverseC (2 * h) (dftR (2 * h) x) n := rfl
  rw [heq]
  have hrc := roundC (2 * h) (by omega) (fun m => (x m : ℂ)) n hn
  unfold dftR
  rw [hrc]
  push_cast
  simp

theorem interleave_deinterleave {α : Type} (l : List α) :
    interleave (deinterleave l).1 (deinterleave l).2 = l := by
  induction l with
  | nil => simp [deinterleave, interleave]
  | cons a t ih =>
    show interleave (a :: (deinterleave t).2) ((deinterleave t).1) = a :: t
    rw [interleave, ih]

theorem deinterleave_length {α : Type} (l : List α) :
    (deinterleave l).1.length = (l.length + 1) / 2 ∧
    (deinterleave l).2.length = l.length / 2 := by
  induction l with
  | nil => exact ⟨by simp [deinterleave], by simp [deinterleave]⟩
  | cons a t ih =>
    constructor
    · show (a :: (deinterleave t).2).length = ((a :: t).length + 1) / 2
      simp only [List.length_cons, ih.2]
      omega
    · show (deinterleave t).1.length = (a :: t).length / 2
      simp only [List.length_cons, ih.1]

theorem reorder_internalOf {α : Type} (l : List α) :
    reorderFwd (internalOfOrdered l) = l := by
  unfold reorderFwd internalOfOrdered
  have hlen : (((deinterleave l).1 ++ (deinterleave l).2).length + 1) / 2
      = (deinterleave l).1.length := by
    rw [List.length_append, (deinterleave_length l).1, (deinterleave_length l).2]
    omega
  rw [hlen, List.take_left, List.drop_left]
  exact interleave_deinterleave l

/-- C6: for every supported kind (the ideal-arithmetic model covers
single and double precision alike), every prepared length and every
value-domain input, the transforms are unscaled:
`inverse(forward(x)) = N · x` elementwise — for the complex kinds at
every length `N > 0`, and for the real kinds at every even length
`2·half` (the real transform packs DC/Nyquist into slot 0, so its
length is even by construction). -/
theorem claim_C6 :
    (∀ (N : ℕ) (x : ℕ → ℂ) (n : ℕ), 0 < N → n < N →
       fftInverseC N (fftForwardC N x) n = (N : ℂ) * x n) ∧
    (∀ (half : ℕ) (x : ℕ → ℝ) (n : ℕ), 0 < half → n < 2 * half →
       fftInverseR (2 * half) (fftForwardR (2 * half) x) n
         = ((2 * half : ℕ) : ℝ) * x n) :=
  ⟨fun N x n hN hn => roundC N hN x n hn,
   fun half x n hh hn => roundR half hh x n hn⟩

/-- C6 witness: the round trips at length 1 (complex kind) and
length 2 (real kind) on the all-ones input. -/
theorem claim_C6_witness :
    fftInverseC 1 (fftForwardC 1 fun _ => (1 : ℂ)) 0 = ((1 : ℕ) : ℂ) * (1 : ℂ) ∧
    fftInverseR (2 * 1) (fftForwardR (2 * 1) fun _ => (1 : ℝ)) 0
      = ((2 * 1 : ℕ) : ℝ) * (1 : ℝ) :=
  ⟨claim_C6.1 1 (fun _ => 1) 0 one_pos (by norm_num),
   claim_C6.2 1 (fun _ => 1) 0 one_pos (by norm_num)⟩

/-- C7: for both the complex and the real kinds, reordering the
internal-layout spectrum produced by `forwardToInternalLayout` yields
exactly the canonical ordered spectrum produced by `forward`,
elementwise. -/
theorem claim_C7 (N : ℕ) (x : ℕ → ℂ) (y : ℕ → ℝ) :
    fftReorderSpectrum (fftForwardToInternalLayoutC N x) = fftForwardListC N x ∧
    fftReorderSpectrum (fftForwardToInternalLayoutR N y) = fftForwardListR N y :=
  ⟨reorder_internalOf _, reorder_internalOf _⟩

end PffftSpec
